import Mathlib

/-!
Verification development for the mailgloss repository.

The template engine lives in `storage/templates.go` (`RenderTemplate`,
`extractVariables`, `Templates.Add` / `Update` / `Delete`) and the address
resolver in `models/compose.go` (`parseFromField`, `splitEmails`).  Strings
are embedded as `List Char`; byte indices in the Go code are only ever used
to search for the ASCII delimiters `{{`, `}}`, `<`, `>` and `,`, so rune
positions select exactly the same substrings.
-/

deriving instance DecidableEq for Except

namespace Mailgloss

/-- Whitespace set of Go `unicode.IsSpace` (the set used by
`strings.TrimSpace`): the Latin-1 white space characters together with the
Unicode `White_Space` code points. -/
def goIsSpace (c : Char) : Bool :=
  c = ' ' || c = '\t' || c = '\n' || c = '\u000b' || c = '\u000c' || c = '\r' ||
  c = '\u0085' || c = '\u00a0' || c = '\u1680' ||
  ('\u2000' ≤ c && c ≤ '\u200a') ||
  c = '\u2028' || c = '\u2029' || c = '\u202f' || c = '\u205f' || c = '\u3000'

/-- Whitespace class of Go's regexp `\s`, which is the Perl class
`[\t\n\f\r ]` (note: this is smaller than `unicode.IsSpace`). -/
def reWhitespace (c : Char) : Bool :=
  c = ' ' || c = '\t' || c = '\n' || c = '\u000c' || c = '\r'

/-- Go `strings.TrimSpace` on a character list: remove leading and trailing
`unicode.IsSpace` characters. -/
def trimL (l : List Char) : List Char :=
  ((l.dropWhile goIsSpace).reverse.dropWhile goIsSpace).reverse

/-- Go `strings.TrimSpace` on a `String`. -/
def trimGo (s : String) : String :=
  String.mk (trimL s.data)

/-! ## The `extractVariables` scan (storage/templates.go)

Go scans each text with `strings.Index(text[pos:], "\x7b\x7b")` and then
`strings.Index(text[startIdx:], "\x7d\x7d")`; since the text at `startIdx`
begins with two `{` characters, the first close brace pair can never start
inside the open delimiter, so searching for it after the delimiter is
equivalent. -/

/-- Drop through the first occurrence of the two-character delimiter `{{`,
returning the suffix that follows it (Go `strings.Index(text, "\x7b\x7b")`). -/
def findOpen : List Char → Option (List Char)
  | [] => none
  | c :: r => if c = '{' ∧ r.head? = some '{' then some r.tail else findOpen r

/-- Split at the first occurrence of `}}`: returns the characters strictly
before it and the suffix strictly after it
(Go `strings.Index(text, "\x7d\x7d")`). -/
def takeToClose : List Char → Option (List Char × List Char)
  | [] => none
  | c :: r =>
    if c = '}' ∧ r.head? = some '}' then some ([], r.tail)
    else (takeToClose r).map fun p => (c :: p.1, p.2)

/-- Whether `}}` occurs anywhere in the list. -/
def hasClose : List Char → Bool
  | [] => false
  | c :: r => if c = '}' ∧ r.head? = some '}' then true else hasClose r

/-- The scanning loop of `extractVariables`, with explicit fuel (one unit per
extracted variable; `l.length` is always enough): repeatedly find `{{`, then
the first following `}}`; if either is missing, stop scanning this string.
Returns the raw (untrimmed) names between the delimiter pairs, in order. -/
def scanFuel : Nat → List Char → List (List Char)
  | 0, _ => []
  | fuel + 1, l =>
    match findOpen l with
    | none => []
    | some r =>
      match takeToClose r with
      | none => []
      | some p => p.1 :: scanFuel fuel p.2

/-- The scan of one string in `extractVariables`. -/
def scanVars (l : List Char) : List (List Char) :=
  scanFuel l.length l

/-- Go `extractVariables(texts...)`: every raw name found by the scan is
trimmed with `strings.TrimSpace`; empty trimmed names are discarded; the
result is the deduplicated collection (Go stores the names as keys of a map,
whose iteration order is unspecified — the set is modelled as the
first-occurrence deduplicated list). -/
def extractVariables (texts : List String) : List String :=
  (((texts.flatMap fun t => scanVars t.data).map
      fun n => String.mk (trimL n)).filter fun v => v != "").dedup

theorem findOpen_length {l r : List Char} (h : findOpen l = some r) :
    r.length + 2 ≤ l.length := by
  induction l with
  | nil => simp [findOpen] at h
  | cons c t ih =>
    rw [findOpen] at h
    split at h
    · rename_i hc
      obtain ⟨rfl⟩ := Option.some.inj h
      rcases t with _ | ⟨c2, t'⟩
      · simp at hc
      · simp
    · have := ih h
      simp only [List.length_cons]
      omega

theorem takeToClose_length {l n r : List Char} (h : takeToClose l = some (n, r)) :
    n.length + r.length + 2 = l.length := by
  induction l generalizing n with
  | nil => simp [takeToClose] at h
  | cons c t ih =>
    rw [takeToClose] at h
    split at h
    · rename_i hc
      rcases t with _ | ⟨c2, t'⟩
      · simp at hc
      · simp only [List.tail_cons, Option.some.injEq, Prod.mk.injEq] at h
        obtain ⟨rfl, rfl⟩ := h
        simp
    · rcases hm : takeToClose t with _ | ⟨n', r'⟩ <;> rw [hm] at h
      · simp at h
      · simp only [Option.map_some', Option.some.injEq] at h
        rw [Prod.ext_iff] at h
        obtain ⟨h1, h2⟩ := h
        simp only at h1 h2
        subst h1; subst h2
        have := ih hm
        simp only [List.length_cons]
        omega

/-! ## The RenderTemplate replacement (storage/templates.go)

Go builds the pattern `\\{\\{\\s*` + `regexp.QuoteMeta(key)` + `\\s*\\}\\}` and calls
`re.ReplaceAllString(text, value)`.  Because the key is quoted, the pattern
is the literal open delimiter, a greedy run of `\s`, the literal key, a
greedy run of `\s` and the close delimiter; Go regexp returns the leftmost
match and, among matches at one position, the one a backtracking search
finds first, so the whitespace runs match greedily with backtracking.
`ReplaceAllString` substitutes non-overlapping successive matches and
interprets `$` references in the replacement text via `Regexp.Expand`; the
pattern has no capture groups, so group 0 is the whole match and every
other reference is empty. -/

/-- Whether the first list is an initial segment of the second. -/
def leadsWith : List Char → List Char → Bool
  | [], _ => true
  | _ :: _, [] => false
  | a :: as, b :: bs => a == b && leadsWith as bs

/-- Length of the maximal leading run of regexp whitespace. -/
def wsRunLen : List Char → Nat
  | [] => 0
  | c :: r => if reWhitespace c then wsRunLen r + 1 else 0

/-- Consume a literal close delimiter at the head. -/
def dropClose : List Char → Option (List Char)
  | [] => none
  | c :: r => if c = '}' ∧ r.head? = some '}' then some r.tail else none

/-- Try the trailing whitespace count greedily from `w` down to `0`,
followed by the close delimiter. -/
def matchClose (l : List Char) : Nat → Option (List Char)
  | 0 => dropClose l
  | w + 1 =>
    match dropClose (l.drop (w + 1)) with
    | some r => some r
    | none => matchClose l w

/-- Match the literal key after `w` whitespace characters, then trailing
whitespace and the close delimiter. -/
def tryAt (k l : List Char) (w : Nat) : Option (List Char) :=
  if leadsWith k (l.drop w) then
    matchClose ((l.drop w).drop k.length) (wsRunLen ((l.drop w).drop k.length))
  else none

/-- Backtracking over the leading whitespace count, greedily from `w` down
to `0`. -/
def matchKey (k l : List Char) : Nat → Option (List Char)
  | 0 => tryAt k l 0
  | w + 1 =>
    match tryAt k l (w + 1) with
    | some r => some r
    | none => matchKey k l w

/-- Match the whole pattern at the head of `l`: open delimiter, greedy
whitespace, literal key, greedy whitespace, close delimiter; returns the
suffix after the match. -/
def tryMatch (k : List Char) (l : List Char) : Option (List Char) :=
  match l with
  | [] => none
  | c :: r =>
    if c = '{' ∧ r.head? = some '{' then matchKey k r.tail (wsRunLen r.tail)
    else none

/-- Character class of a `$name` reference in Go `Regexp.Expand`: letters,
digits and underscore (modelled for the ASCII range). -/
def refNameChar (c : Char) : Bool := c.isAlphanum || c = '_'

/-- Parse a `$` reference after the dollar sign, as Go `extract` does:
either a braced name or a maximal nonempty run of name characters.  The
only capture group of the pattern is group 0, so the reference expands to
the whole match exactly when the name is the single digit `0` (a longer
all-digit name with a leading zero is not a number reference, and any other
name refers to a nonexistent group).  Returns whether the reference is
group 0, and the rest of the template. -/
def expandRef (l : List Char) : Option (Bool × List Char) :=
  match l with
  | [] => none
  | c :: r =>
    if c = '{' then
      let name := r.takeWhile refNameChar
      if name.isEmpty then none
      else
        match r.drop name.length with
        | '}' :: r2 => some (name == ['0'], r2)
        | _ => none
    else
      let name := l.takeWhile refNameChar
      if name.isEmpty then none
      else some (name == ['0'], l.drop name.length)

/-- Go `Regexp.expand` applied to a replacement template and the matched
text `m`, with explicit fuel (the template length is always enough): `$$`
emits a dollar sign; a group-0 reference emits `m`; a reference to any
other group or name emits nothing; a dollar sign that starts no valid
reference is literal. -/
def expandFuel (m : List Char) : Nat → List Char → List Char
  | 0, l => l
  | _ + 1, [] => []
  | f + 1, c :: rest =>
    if c = '$' then
      if rest.head? = some '$' then '$' :: expandFuel m f rest.tail
      else
        match expandRef rest with
        | some p => (if p.1 then m else []) ++ expandFuel m f p.2
        | none => '$' :: expandFuel m f rest
    else c :: expandFuel m f rest

/-- Expansion of a replacement template against the matched text. -/
def expandDollar (v m : List Char) : List Char := expandFuel m v.length v

/-- Go `ReplaceAllString`, with explicit fuel (the text length is always
enough): scan left to right; at a match, emit the expanded replacement and
continue after the match; otherwise emit one character and continue. -/
def replaceFuel (k v : List Char) : Nat → List Char → List Char
  | 0, l => l
  | _ + 1, [] => []
  | f + 1, c :: rest =>
    match tryMatch k (c :: rest) with
    | some r =>
      expandDollar v ((c :: rest).take ((c :: rest).length - r.length)) ++
        replaceFuel k v f r
    | none => c :: replaceFuel k v f rest

/-- Go `re.ReplaceAllString(text, value)` for the pattern built from `key`. -/
def replaceAll (k v l : List Char) : List Char := replaceFuel k v l.length l

/-- String-level replacement used by `RenderTemplate`. -/
def replaceVar (key value text : String) : String :=
  String.mk (replaceAll key.data value.data text.data)

/-- The `Template` record of storage/templates.go; the timestamps are
abstract instants. -/
structure Template where
  ID : String
  Name : String
  Subject : String
  Body : String
  Variables : List String
  Tags : List String
  Description : String
  CreatedAt : Nat
  UpdatedAt : Nat
  deriving DecidableEq, Inhabited

/-- Go `RenderTemplate(template, variables)`: for each key/value pair,
replace all pattern matches in subject and body.  Go iterates the
`variables` map in unspecified order; the embedding takes the iteration
order as an explicit association list. -/
def renderTemplate (t : Template) (vars : List (String × String)) :
    String × String :=
  vars.foldl
    (fun sb kv => (replaceVar kv.1 kv.2 sb.1, replaceVar kv.1 kv.2 sb.2))
    (t.Subject, t.Body)

/-! ## The template store (storage/templates.go)

`save` is the JSON persistence collaborator (`Templates.save`), abstracted
as a function from the new list to an optional error; `load` and
`NewTemplates` are pure file I/O and are not modelled. -/

/-- Go `Templates.Add`: set both timestamps to now, default the id from the
formatted timestamp, recompute `variables` from subject and body, append,
save. -/
def addGo (save : List Template → Option String) (l : List Template)
    (t : Template) (now : Nat) : List Template × Option String :=
  let t1 : Template := { t with CreatedAt := now, UpdatedAt := now }
  let t2 : Template := if t1.ID = "" then { t1 with ID := toString now } else t1
  let t3 : Template :=
    { t2 with Variables := extractVariables [t2.Subject, t2.Body] }
  (l ++ [t3], save (l ++ [t3]))

/-- Go `Templates.Update`: find the first template with the given id; when
none matches, return without error; otherwise keep its id and creation
time, refresh the update time, recompute `variables`, store and save. -/
def updateGo (save : List Template → Option String) (l : List Template)
    (id : String) (t : Template) (now : Nat) : List Template × Option String :=
  match l.findIdx? (fun x => x.ID == id) with
  | none => (l, none)
  | some i =>
    let old := l.getD i default
    let u : Template :=
      { t with ID := id, CreatedAt := old.CreatedAt, UpdatedAt := now,
               Variables := extractVariables [t.Subject, t.Body] }
    (l.set i u, save (l.set i u))

/-- Go `Templates.Delete`: remove the first template with the given id and
save; a missing id returns without error. -/
def deleteGo (save : List Template → Option String) (l : List Template)
    (id : String) : List Template × Option String :=
  match l.findIdx? (fun x => x.ID == id) with
  | none => (l, none)
  | some i => (l.take i ++ l.drop (i + 1), save (l.take i ++ l.drop (i + 1)))

/-! ## The address resolver (models/compose.go)

`parseFromField` and `splitEmails` delegate address validation to the Go
standard library `mail.ParseAddress` (RFC 5322 mailbox grammar), which is
outside this repository, so the resolver is parameterised by the mailbox
parser `pa`, which returns either an (address, display name) pair or the
parse error text.  The provider configuration is reduced to the only field
the resolver reads: the optional Mailgun domain (`none` models a nil
provider or a nil Mailgun record, `some ""` an empty domain field). -/

/-- Go `strings.Split(s, ",")` on character lists. -/
def splitComma : List Char → List (List Char)
  | [] => [[]]
  | c :: r =>
    if c = ',' then [] :: splitComma r
    else
      match splitComma r with
      | g :: gs => (c :: g) :: gs
      | [] => [[c]]

/-- Go `splitEmails` loop body: trim each part, skip empty parts, validate
each with the mailbox parser; the first invalid address aborts the whole
field with an error identifying it. -/
def splitEmailsLoop (pa : String → Except String (String × String)) :
    List (List Char) → Except String (List String)
  | [] => .ok []
  | p :: ps =>
    let email := trimL p
    if email.isEmpty then splitEmailsLoop pa ps
    else
      match pa (String.mk email) with
      | .error e =>
        .error ("invalid email '" ++ String.mk email ++ "': " ++ e)
      | .ok _ =>
        match splitEmailsLoop pa ps with
        | .error e => .error e
        | .ok rest => .ok (String.mk email :: rest)

/-- Go `splitEmails(s)`: empty input is an empty valid list. -/
def splitEmails (pa : String → Except String (String × String)) (s : String) :
    Except String (List String) :=
  if s.data.isEmpty then .ok [] else splitEmailsLoop pa (splitComma s.data)

/-- Append the provider domain when the candidate ends in a commercial at
and a non-empty Mailgun domain is configured. -/
def appendDomain (l : List Char) (domain : Option String) : List Char :=
  if l.getLast? = some '@' then
    match domain with
    | some d => if d.data.isEmpty then l else l ++ d.data
    | none => l
  else l

/-- Error text of Go `fmt.Errorf("invalid email address ...", input, parseErr)`. -/
def errFmt (input e : String) : String :=
  "invalid email address '" ++ input ++ "': " ++ e

/-- Go `parseFromField(input, providerConfig)`: trim; empty input is not an
error; complete a trailing commercial at from the provider domain; try the
primary mailbox parse; on failure, try the bracketed fallback (first `<`,
first `>`, in that order), whose address candidate is the trimmed text
strictly between them (domain-completed) and whose display-name candidate
is the trimmed text before the bracket if non-empty, else the trimmed text
after it; when the fallback also fails, report the primary parse error. -/
def parseFromField (pa : String → Except String (String × String))
    (raw : String) (domain : Option String) : Except String (String × String) :=
  let t0 := trimL raw.data
  if t0.isEmpty then .ok ("", "")
  else
    let input := String.mk (appendDomain t0 domain)
    match pa input with
    | .ok an => .ok an
    | .error parseErr =>
      let l := input.data
      if l.contains '<' && l.contains '>' then
        let s := l.findIdx (· == '<')
        let t := l.findIdx (· == '>')
        if s < t then
          let emailPart :=
            appendDomain (trimL ((l.drop (s + 1)).take (t - s - 1))) domain
          let b := trimL (l.take s)
          let namePart :=
            if t < l.length - 1 ∧ b.isEmpty then trimL (l.drop (t + 1)) else b
          match pa (String.mk emailPart) with
          | .ok _ => .ok (String.mk emailPart, String.mk namePart)
          | .error _ => .error (errFmt input parseErr)
        else .error (errFmt input parseErr)
      else .error (errFmt input parseErr)

/-- Validity of a bare `local@domain` for the simplified concrete mailbox
parser below. -/
def bareOk (a : List Char) : Bool :=
  a.count '@' == 1 && a.head? != some '@' && a.getLast? != some '@' &&
  a.all fun c => !goIsSpace c && c != '<' && c != '>' && c != ','

/-- Modelled from the spec: the repository delegates mailbox validation to
the Go standard library `mail.ParseAddress` ("RFC 5322 mailbox grammar" in
the spec), which is not part of the repository sources.  This simplified
concrete instance accepts the two shapes the spec names — a bare
`local@domain` and `Display Name <local@domain>` — and instantiates the
abstract parser parameter in witnesses. -/
def simpleParseAddress (s : String) : Except String (String × String) :=
  let l := s.data
  if bareOk l then .ok (s, "")
  else
    if l.getLast? = some '>' ∧ l.contains '<' then
      let i := l.findIdx (· == '<')
      let a := (l.drop (i + 1)).dropLast
      if bareOk a then .ok (String.mk a, String.mk (trimL (l.take i)))
      else .error "mail: no angle-addr"
    else .error "mail: missing @ or angle-addr"

/-- A fully formed placeholder instance for the pattern of key `k`: open
delimiter, whitespace run `u`, the key, whitespace run `w`, close
delimiter. -/
def varPat (k u w : List Char) : List Char :=
  '{' :: '{' :: (u ++ k ++ w ++ '}' :: '}' :: [])

/-- The first comma-separated part of the field that is non-empty after
trimming and is rejected by the mailbox parser (the first offending
address of `splitEmails`). -/
def firstInvalid (pa : String → Except String (String × String))
    (s : String) : Option (List Char) :=
  (((splitComma s.data).map trimL).filter fun x =>
    !x.isEmpty &&
      (match pa (String.mk x) with
       | .error _ => true
       | .ok _ => false)).head?

theorem scanFuel_congr {a b : Nat} {l : List Char} (h1 : l.length ≤ a)
    (h2 : l.length ≤ b) : scanFuel a l = scanFuel b l := by
  induction a using Nat.strong_induction_on generalizing b l with
  | _ a ih =>
    match a, b with
    | 0, 0 => rfl
    | 0, g2 + 1 =>
      have : l = [] := List.length_eq_zero.mp (Nat.le_zero.mp h1)
      subst this
      simp [scanFuel, findOpen]
    | g1 + 1, 0 =>
      have : l = [] := List.length_eq_zero.mp (Nat.le_zero.mp h2)
      subst this
      simp [scanFuel, findOpen]
    | g1 + 1, g2 + 1 =>
      rw [scanFuel, scanFuel]
      rcases ho : findOpen l with _ | r
      · rfl
      · rcases hc : takeToClose r with _ | p
        · simp only [hc]
        · simp only [hc]
          have la := findOpen_length ho
          have lb : p.1.length + p.2.length + 2 = r.length := takeToClose_length hc
          have hlen : p.2.length ≤ g1 ∧ p.2.length ≤ g2 := by omega
          rw [ih g1 (Nat.lt_succ_self g1) hlen.1 hlen.2]

theorem scanVars_open_none {l : List Char} (h : findOpen l = none) :
    scanVars l = [] := by
  rcases l with _ | ⟨c, t⟩
  · rfl
  · rw [scanVars, List.length_cons, scanFuel, h]

theorem scanVars_close_none {l r : List Char} (h1 : findOpen l = some r)
    (h2 : takeToClose r = none) : scanVars l = [] := by
  have hl := findOpen_length h1
  rcases l with _ | ⟨c, t⟩
  · rfl
  · rw [scanVars, List.length_cons, scanFuel, h1]
    simp only [h2]

theorem scanVars_cons {l r n rest : List Char} (h1 : findOpen l = some r)
    (h2 : takeToClose r = some (n, rest)) :
    scanVars l = n :: scanVars rest := by
  have hl := findOpen_length h1
  have hr := takeToClose_length h2
  rcases l with _ | ⟨c, t⟩
  · simp [findOpen] at h1
  · rw [scanVars, List.length_cons, scanFuel, h1]
    simp only [h2]
    rw [scanVars, scanFuel_congr (a := t.length) (b := rest.length) (by simp only [List.length_cons] at hl; omega) (Nat.le_refl _)]


/-! ## Lemmas about the scan -/

theorem takeToClose_none_iff {l : List Char} :
    takeToClose l = none ↔ hasClose l = false := by
  induction l with
  | nil => simp [takeToClose, hasClose]
  | cons c t ih =>
    rw [takeToClose, hasClose]
    split
    · simp
    · rcases hm : takeToClose t with _ | p <;> simp_all

theorem hasClose_cons_elim {c : Char} {t : List Char}
    (h : hasClose (c :: t) = false) :
    hasClose t = false ∧ ¬(c = '}' ∧ t.head? = some '}') := by
  rw [hasClose] at h
  split at h
  · exact absurd h (by simp)
  · exact ⟨h, by assumption⟩

theorem hasClose_cons_ne {c : Char} {t : List Char} (hc : c ≠ '}') :
    hasClose (c :: t) = hasClose t := by
  rw [hasClose]
  split
  · exact absurd (by tauto) hc
  · rfl

theorem hasClose_append_open {a q : List Char} (ha : hasClose a = false)
    (hq : hasClose q = false) : hasClose (a ++ '{' :: '{' :: q) = false := by
  induction a with
  | nil =>
    simp only [List.nil_append]
    rw [hasClose_cons_ne (by decide), hasClose_cons_ne (by decide)]
    exact hq
  | cons c t ih =>
    obtain ⟨h1, h2⟩ := hasClose_cons_elim ha
    rw [List.cons_append, hasClose]
    split
    · rename_i hcc
      rcases t with _ | ⟨c2, t'⟩
      · simp at hcc
      · exact absurd (by simpa using hcc) h2
    · exact ih h1

theorem findOpen_append {p r s : List Char} (h : findOpen p = some r) :
    findOpen (p ++ s) = some (r ++ s) := by
  induction p with
  | nil => simp [findOpen] at h
  | cons c t ih =>
    rw [findOpen] at h
    rw [List.cons_append, findOpen]
    split at h
    · rename_i hcc
      rcases t with _ | ⟨c2, t'⟩
      · simp at hcc
      · simp only [List.head?_cons, Option.some.injEq] at hcc
        obtain ⟨rfl⟩ := Option.some.inj h
        rw [if_pos (by simp [hcc.1, hcc.2])]
        simp
    · rename_i hcc
      rcases t with _ | ⟨c2, t'⟩
      · simp [findOpen] at h
      · rw [if_neg (by simpa using hcc)]
        exact ih h

theorem findOpen_none_append {p q : List Char} (h : findOpen p = none) :
    findOpen (p ++ '{' :: '{' :: q) = some q ∨
    findOpen (p ++ '{' :: '{' :: q) = some ('{' :: q) := by
  induction p with
  | nil =>
    left
    simp [findOpen]
  | cons c t ih =>
    rw [findOpen] at h
    split at h
    · simp at h
    · rename_i hcc
      rw [List.cons_append, findOpen]
      rcases t with _ | ⟨c2, t'⟩
      · by_cases hc : c = '{'
        · right
          rw [if_pos (by simp [hc])]
          simp
        · rw [if_neg (by simp [hc])]
          left
          simp [findOpen]
      · rw [if_neg (by simpa using hcc)]
        exact ih h

theorem takeToClose_append {r n rest s : List Char}
    (h : takeToClose r = some (n, rest)) :
    takeToClose (r ++ s) = some (n, rest ++ s) := by
  induction r generalizing n rest with
  | nil => simp [takeToClose] at h
  | cons c t ih =>
    rw [takeToClose] at h
    rw [List.cons_append, takeToClose]
    split at h
    · rename_i hcc
      rcases t with _ | ⟨c2, t'⟩
      · simp at hcc
      · simp only [List.head?_cons, Option.some.injEq] at hcc
        simp only [List.tail_cons, Option.some.injEq, Prod.mk.injEq] at h
        obtain ⟨rfl, rfl⟩ := h
        rw [if_pos (by simp [hcc.1, hcc.2])]
        simp
    · rename_i hcc
      rcases t with _ | ⟨c2, t'⟩
      · simp [takeToClose] at h
      · rw [if_neg (by simpa using hcc)]
        rcases hm : takeToClose (c2 :: t') with _ | ⟨n1, r1⟩ <;> rw [hm] at h
        · simp at h
        · simp only [Option.map_some', Option.some.injEq, Prod.mk.injEq] at h
          obtain ⟨rfl, rfl⟩ := h
          rw [ih hm]
          simp

theorem scanVars_append_unclosed_aux :
    ∀ (n : Nat) (p q : List Char), p.length ≤ n → hasClose q = false →
    scanVars (p ++ '{' :: '{' :: q) = scanVars p := by
  intro n
  induction n using Nat.strong_induction_on with
  | _ n ih =>
    intro p q hp hq
    rcases ho : findOpen p with _ | r
    · rw [scanVars_open_none ho]
      have h2 : hasClose ('{' :: q) = false := by
        rw [hasClose_cons_ne (by decide)]; exact hq
      rcases findOpen_none_append (q := q) ho with hca | hca
      · exact scanVars_close_none hca (takeToClose_none_iff.mpr hq)
      · exact scanVars_close_none hca (takeToClose_none_iff.mpr h2)
    · have hoa := findOpen_append (s := '{' :: '{' :: q) ho
      rcases hc : takeToClose r with _ | ⟨m, rest⟩
      · rw [scanVars_close_none ho hc]
        have hr : hasClose r = false := takeToClose_none_iff.mp hc
        exact scanVars_close_none hoa
          (takeToClose_none_iff.mpr (hasClose_append_open hr hq))
      · rw [scanVars_cons ho hc, scanVars_cons hoa (takeToClose_append hc)]
        have l1 := findOpen_length ho
        have l2 := takeToClose_length hc
        rw [ih rest.length (by omega) rest q (Nat.le_refl _) hq]

/-! ## Lemmas about the pattern matcher and replacement -/

theorem takeToClose_exact {m q : List Char} (h1 : hasClose m = false)
    (h2 : m.getLast? ≠ some '}') :
    takeToClose (m ++ '}' :: '}' :: q) = some (m, q) := by
  induction m with
  | nil => simp [takeToClose]
  | cons c t ih =>
    obtain ⟨ht, hcc⟩ := hasClose_cons_elim h1
    rw [List.cons_append, takeToClose]
    rcases t with _ | ⟨c2, t'⟩
    · have hcne : c ≠ '}' := by simpa using h2
      rw [if_neg (by simp [hcne])]
      simp [takeToClose]
    · rw [if_neg (by simpa using hcc)]
      rw [ih ht (by simpa using h2)]
      simp

theorem leadsWith_append (k x : List Char) : leadsWith k (k ++ x) = true := by
  induction k with
  | nil => rfl
  | cons c t ih => simp [leadsWith, ih]

theorem wsRunLen_ws_append {w : List Char} {c : Char} {x : List Char}
    (hw : ∀ a, a ∈ w → reWhitespace a = true) (hc : reWhitespace c = false) :
    wsRunLen (w ++ c :: x) = w.length := by
  induction w with
  | nil => simp [wsRunLen, hc]
  | cons a t ih =>
    rw [List.cons_append, wsRunLen, if_pos (hw a (by simp)),
      ih fun b hb => hw b (by simp [hb])]
    simp

theorem matchClose_at {w q : List Char}
    (hw : ∀ a, a ∈ w → reWhitespace a = true) :
    matchClose (w ++ '}' :: '}' :: q) w.length = some q := by
  have hdrop : (w ++ '}' :: '}' :: q).drop w.length = '}' :: '}' :: q :=
    List.drop_left w _
  rcases hl : w.length with _ | n
  · have : w = [] := List.length_eq_zero.mp hl
    subst this
    simp [matchClose, dropClose]
  · rw [matchClose, ← hl, hdrop]
    simp [dropClose]

theorem tryAt_pat {k w q : List Char} (u : List Char)
    (hw : ∀ a, a ∈ w → reWhitespace a = true) :
    tryAt k (u ++ (k ++ (w ++ '}' :: '}' :: q))) u.length = some q := by
  rw [tryAt]
  rw [List.drop_left u (k ++ (w ++ '}' :: '}' :: q))]
  rw [if_pos (leadsWith_append k (w ++ '}' :: '}' :: q))]
  rw [List.drop_left k (w ++ '}' :: '}' :: q)]
  rw [wsRunLen_ws_append hw (by decide)]
  exact matchClose_at hw

theorem matchKey_of_tryAt {k l : List Char} {n : Nat} {r : List Char}
    (h : tryAt k l n = some r) : matchKey k l n = some r := by
  rcases n with _ | m
  · rw [matchKey]; exact h
  · rw [matchKey, h]

theorem tryMatch_pat {k u w q : List Char} (hk : k ≠ [])
    (hu : ∀ a, a ∈ u → reWhitespace a = true)
    (hw : ∀ a, a ∈ w → reWhitespace a = true)
    (hh : ∀ c, k.head? = some c → reWhitespace c = false) :
    tryMatch k (varPat k u w ++ q) = some q := by
  rcases k with _ | ⟨c0, k'⟩
  · exact absurd rfl hk
  · have hshape : varPat (c0 :: k') u w ++ q
        = '{' :: '{' :: (u ++ ((c0 :: k') ++ (w ++ '}' :: '}' :: q))) := by
      simp [varPat]
    rw [hshape, tryMatch.eq_def]
    simp only
    rw [if_pos (by simp)]
    simp only [List.head?_cons, List.tail_cons]
    have hu2 : u ++ ((c0 :: k') ++ (w ++ '}' :: '}' :: q))
        = u ++ c0 :: (k' ++ (w ++ '}' :: '}' :: q)) := by simp
    have hrun : wsRunLen (u ++ ((c0 :: k') ++ (w ++ '}' :: '}' :: q))) = u.length := by
      rw [hu2]
      exact wsRunLen_ws_append hu (hh c0 rfl)
    rw [hrun]
    exact matchKey_of_tryAt (tryAt_pat u hw)

theorem dropClose_length {l r : List Char} (h : dropClose l = some r) :
    r.length + 2 = l.length := by
  rcases l with _ | ⟨c, t⟩
  · simp [dropClose] at h
  · rw [dropClose] at h
    split at h
    · rename_i hc
      rcases t with _ | ⟨c2, t'⟩
      · simp at hc
      · simp only [List.tail_cons] at h
        obtain ⟨rfl⟩ := Option.some.inj h
        simp
    · simp at h

theorem matchClose_length {l : List Char} {n : Nat} {r : List Char}
    (h : matchClose l n = some r) : r.length ≤ l.length := by
  induction n with
  | zero =>
    rw [matchClose] at h
    have := dropClose_length h
    omega
  | succ m ih =>
    rw [matchClose] at h
    rcases hd : dropClose (l.drop (m + 1)) with _ | r2 <;> rw [hd] at h
    · exact ih h
    · obtain ⟨rfl⟩ := Option.some.inj h
      have h1 := dropClose_length hd
      have h2 : (l.drop (m + 1)).length ≤ l.length := by
        simp [List.length_drop]
      omega

theorem tryAt_length {k l : List Char} {w : Nat} {r : List Char}
    (h : tryAt k l w = some r) : r.length ≤ l.length := by
  rw [tryAt] at h
  split at h
  · have h1 := matchClose_length h
    have h2 : ((l.drop w).drop k.length).length ≤ l.length := by
      simp [List.length_drop]
    omega
  · simp at h

theorem matchKey_length {k l : List Char} {n : Nat} {r : List Char}
    (h : matchKey k l n = some r) : r.length ≤ l.length := by
  induction n with
  | zero => exact tryAt_length (by rw [matchKey] at h; exact h)
  | succ m ih =>
    rw [matchKey] at h
    rcases ht : tryAt k l (m + 1) with _ | r2 <;> rw [ht] at h
    · exact ih h
    · obtain ⟨rfl⟩ := Option.some.inj h
      exact tryAt_length ht

theorem tryMatch_length {k l r : List Char} (h : tryMatch k l = some r) :
    r.length < l.length := by
  rcases l with _ | ⟨c, t⟩
  · simp [tryMatch] at h
  · rw [tryMatch] at h
    split at h
    · have h1 := matchKey_length h
      have h2 : t.tail.length ≤ t.length := by
        rcases t with _ | ⟨c2, t'⟩ <;> simp
      simp only [List.length_cons]
      omega
    · simp at h

theorem replaceFuel_congr {k v : List Char} {a b : Nat} {l : List Char}
    (h1 : l.length ≤ a) (h2 : l.length ≤ b) :
    replaceFuel k v a l = replaceFuel k v b l := by
  induction a using Nat.strong_induction_on generalizing b l with
  | _ a ih =>
    match a, b with
    | 0, 0 => rfl
    | 0, g + 1 =>
      have : l = [] := List.length_eq_zero.mp (Nat.le_zero.mp h1)
      subst this
      rfl
    | g + 1, 0 =>
      have : l = [] := List.length_eq_zero.mp (Nat.le_zero.mp h2)
      subst this
      rfl
    | g1 + 1, g2 + 1 =>
      rcases l with _ | ⟨c, rest⟩
      · rfl
      · rw [replaceFuel, replaceFuel]
        rcases hm : tryMatch k (c :: rest) with _ | r
        · simp only [hm]
          have e1 : rest.length ≤ g1 := by
            simp only [List.length_cons] at h1; omega
          have e2 : rest.length ≤ g2 := by
            simp only [List.length_cons] at h2; omega
          rw [ih g1 (Nat.lt_succ_self g1) (b := g2) e1 e2]
        · simp only [hm]
          have hr := tryMatch_length hm
          have e1 : r.length ≤ g1 := by
            simp only [List.length_cons] at h1 hr; omega
          have e2 : r.length ≤ g2 := by
            simp only [List.length_cons] at h2 hr; omega
          rw [ih g1 (Nat.lt_succ_self g1) (b := g2) e1 e2]

theorem replaceAll_skip {k v : List Char} {c : Char} {rest : List Char}
    (h : tryMatch k (c :: rest) = none) :
    replaceAll k v (c :: rest) = c :: replaceAll k v rest := by
  rw [replaceAll, List.length_cons, replaceFuel, h]
  rfl

theorem replaceAll_match {k v : List Char} {c : Char} {rest r : List Char}
    (h : tryMatch k (c :: rest) = some r) :
    replaceAll k v (c :: rest) =
      expandDollar v ((c :: rest).take ((c :: rest).length - r.length)) ++
        replaceAll k v r := by
  have hr := tryMatch_length h
  rw [replaceAll, List.length_cons, replaceFuel]
  simp only [h]
  rw [replaceAll]
  rw [replaceFuel_congr (a := rest.length) (b := r.length)
    (by simp only [List.length_cons] at hr; omega) (Nat.le_refl _)]
  simp only [List.length_cons]

theorem expandFuel_no_dollar {v m : List Char} {f : Nat} (h : '$' ∉ v) :
    expandFuel m f v = v := by
  induction v generalizing f with
  | nil => rcases f with _ | g <;> rfl
  | cons c rest ih =>
    rcases f with _ | g
    · rfl
    · rw [expandFuel, if_neg (by simp at h; exact fun hc => h.1 hc.symm)]
      rw [ih (by simp at h; exact h.2)]

theorem expandDollar_no_dollar {v m : List Char} (h : '$' ∉ v) :
    expandDollar v m = v :=
  expandFuel_no_dollar h

theorem replaceAll_of_no_match {k v s : List Char}
    (h : ∀ i, i < s.length → tryMatch k (s.drop i) = none) :
    replaceAll k v s = s := by
  induction s with
  | nil => rfl
  | cons c rest ih =>
    rw [replaceAll_skip (by simpa using h 0 (by simp))]
    rw [ih fun i hi => by simpa using h (i + 1) (by simp; omega)]

theorem replaceAll_at_pat {k v u w q : List Char} (hk : k ≠ [])
    (hu : ∀ a, a ∈ u → reWhitespace a = true)
    (hw : ∀ a, a ∈ w → reWhitespace a = true)
    (hh : ∀ c, k.head? = some c → reWhitespace c = false)
    (hv : '$' ∉ v) :
    ∀ p : List Char,
      (∀ i, i < p.length → tryMatch k (p.drop i ++ varPat k u w ++ q) = none) →
      replaceAll k v (p ++ varPat k u w ++ q) = p ++ v ++ replaceAll k v q := by
  intro p
  induction p with
  | nil =>
    intro _
    have hm : tryMatch k (varPat k u w ++ q) = some q := tryMatch_pat hk hu hw hh
    rcases hshape : varPat k u w ++ q with _ | ⟨c, rest⟩
    · exact absurd hshape (by simp [varPat])
    · rw [List.nil_append, hshape, replaceAll_match (hshape ▸ hm)]
      have htake : (c :: rest).take ((c :: rest).length - q.length) = varPat k u w := by
        rw [← hshape, List.length_append, Nat.add_sub_cancel, List.take_left]
      rw [htake, expandDollar_no_dollar hv]
      simp
  | cons c p' ih =>
    intro hno
    have h0 : tryMatch k (c :: (p' ++ varPat k u w ++ q)) = none := by
      simpa using hno 0 (by simp)
    rw [List.cons_append, List.cons_append, replaceAll_skip h0]
    rw [ih fun i hi => by simpa using hno (i + 1) (by simp; omega)]
    simp

/-! ## Lemmas about the store and the resolver -/

theorem appendDomain_none {l : List Char} : appendDomain l none = l := by
  rw [appendDomain]
  split <;> rfl

theorem splitEmailsLoop_first (pa : String → Except String (String × String)) :
    ∀ (parts : List (List Char)) (e : List Char) (r : String),
    ((parts.map trimL).filter fun x => !x.isEmpty &&
        (match pa (String.mk x) with
         | .error _ => true
         | .ok _ => false)).head? = some e →
    pa (String.mk e) = .error r →
    splitEmailsLoop pa parts =
      .error ("invalid email '" ++ String.mk e ++ "': " ++ r) := by
  intro parts
  induction parts with
  | nil =>
    intro e r h _
    simp at h
  | cons p ps ih =>
    intro e r h hpa
    rw [splitEmailsLoop]
    by_cases hem : (trimL p).isEmpty
    · rw [if_pos hem]
      refine ih e r ?_ hpa
      simpa [List.filter_cons, hem] using h
    · rw [if_neg hem]
      rcases hval : pa (String.mk (trimL p)) with e0 | ok0
      · have hee : e = trimL p := by
          simp [List.filter_cons, hem, hval] at h
          exact h.symm
        subst hee
        rw [hval] at hpa
        obtain ⟨rfl⟩ := Except.error.inj hpa
        simp only [hval]
      · simp only [hval]
        have hrec := ih e r (by simpa [List.filter_cons, hem, hval] using h) hpa
        rw [hrec]

/-! ## Claims -/

/-- C2: `extractVariables` scans left to right pairing delimiters
sequentially; an open delimiter with no subsequent close delimiter anywhere
in the remaining text is not a match, and scanning of the string stops
there, so nothing at or after that unmatched open delimiter contributes any
variable: the scan of `p ++ "\x7b\x7b" ++ q` with no close pair in `q` equals
the scan of `p` alone, both for the raw scan and for the extracted
variable set (in particular the spec example — see the witness). -/
theorem c2_unmatched_open (p q : List Char) (hq : hasClose q = false) :
    scanVars (p ++ '{' :: '{' :: q) = scanVars p ∧
    extractVariables [String.mk (p ++ '{' :: '{' :: q)] =
      extractVariables [String.mk p] := by
  have h := scanVars_append_unclosed_aux p.length p q (Nat.le_refl _) hq
  exact ⟨h, by simp only [extractVariables, List.flatMap_cons, List.flatMap_nil, h]⟩

/-- C2 witness: the spec example.  The string is `"Hello \x7b\x7bname"`. -/
theorem c2_unmatched_open_witness :
    hasClose ['n', 'a', 'm', 'e'] = false ∧
    scanVars (['H', 'e', 'l', 'l', 'o', ' '] ++ '{' :: '{' :: ['n', 'a', 'm', 'e'])
      = scanVars ['H', 'e', 'l', 'l', 'o', ' '] ∧
    extractVariables ["Hello \x7b\x7bname"] = [] :=
  ⟨by decide,
   (c2_unmatched_open ['H', 'e', 'l', 'l', 'o', ' '] ['n', 'a', 'm', 'e']
     (by decide)).1,
   by decide⟩

/-- C9: when another open delimiter occurs between an opening delimiter and
the first following close delimiter, the outer open pairs with that first
close and the inner open never starts a match of its own: the name taken is
the entire text `m` between the outer open and the first close, inner open
delimiters included; placeholders never nest. -/
theorem c9_no_nesting (m q : List Char) (h1 : hasClose m = false)
    (h2 : m.getLast? ≠ some '}') :
    scanVars ('{' :: '{' :: (m ++ '}' :: '}' :: q)) = m :: scanVars q := by
  have hopen : findOpen ('{' :: '{' :: (m ++ '}' :: '}' :: q))
      = some (m ++ '}' :: '}' :: q) := by
    rw [findOpen, if_pos (by simp)]
    simp
  exact scanVars_cons hopen (takeToClose_exact h1 h2)

/-- C9 witness: `Extract(["\x7b\x7ba\x7b\x7bb\x7d\x7d"])` yields the single name
`"a\x7b\x7bb"`, which itself contains the inner open delimiter. -/
theorem c9_no_nesting_witness :
    hasClose ['a', '{', '{', 'b'] = false ∧
    scanVars ('{' :: '{' :: (['a', '{', '{', 'b'] ++ '}' :: '}' :: []))
      = ['a', '{', '{', 'b'] :: scanVars [] ∧
    extractVariables ["\x7b\x7ba\x7b\x7bb\x7d\x7d"] = ["a\x7b\x7bb"] :=
  ⟨by decide,
   c9_no_nesting ['a', '{', '{', 'b'] [] (by decide) (by decide),
   by decide⟩

/-- C1: evidence that the claim fails on the code.  `RenderTemplate`
iterates the value map with Go `range`, whose order is randomized per run,
and each replacement rescans the partially substituted text; when the value
of key `a` contains the placeholder of key `b`, processing `a` before `b`
substitutes through both, while the opposite order leaves the injected
placeholder in place — the two iteration orders produce different output
for the same template and value map, so Render is not a deterministic
function of (template, map). -/
theorem c1_order_dependent :
    renderTemplate
        { ID := "t", Name := "", Subject := "\x7b\x7ba\x7d\x7d", Body := "",
          Variables := [], Tags := [], Description := "",
          CreatedAt := 0, UpdatedAt := 0 }
        [("a", "\x7b\x7bb\x7d\x7d"), ("b", "X")] ≠
      renderTemplate
        { ID := "t", Name := "", Subject := "\x7b\x7ba\x7d\x7d", Body := "",
          Variables := [], Tags := [], Description := "",
          CreatedAt := 0, UpdatedAt := 0 }
        [("b", "X"), ("a", "\x7b\x7bb\x7d\x7d")] := by
  decide

/-- C4 counterexample: the replacement value is not inserted verbatim.
`ReplaceAllString` interprets `$` references in the value via
`Regexp.Expand`, so the value `"$0"` expands to the matched placeholder
text itself instead of being inserted literally: rendering subject
`"\x7b\x7ba\x7d\x7d"` with value `"$0"` for key `a` yields `"\x7b\x7ba\x7d\x7d"`,
not `"$0"` as the claim requires. -/
theorem c4_not_verbatim :
    (renderTemplate
        { ID := "t", Name := "", Subject := "\x7b\x7ba\x7d\x7d", Body := "",
          Variables := [], Tags := [], Description := "",
          CreatedAt := 0, UpdatedAt := 0 }
        [("a", "$0")]).1 = "\x7b\x7ba\x7d\x7d" ∧
    ("\x7b\x7ba\x7d\x7d" : String) ≠ "$0" := by
  decide

/-- C4 (amended): for each key, every placeholder instance — open
delimiter, whitespace, the literal key, whitespace, close delimiter — is
replaced, with the value inserted verbatim provided the value contains no
dollar sign (a dollar sign in the value is interpreted as a `Regexp.Expand`
reference); text in which the key pattern does not match anywhere, in
particular placeholders of names that are not keys of the map, is left
untouched; and replacement is total (never an error).  The first conjunct
replaces one explicit instance with no match before it and recurses on the
rest; the second states no-match texts are unchanged; the third connects
`renderTemplate` for a single-binding map to the string-level
replacement. -/
theorem c4_render_replaces :
    (∀ (k v u w p q : List Char),
      k ≠ [] →
      (∀ a, a ∈ u → reWhitespace a = true) →
      (∀ a, a ∈ w → reWhitespace a = true) →
      (∀ c, k.head? = some c → reWhitespace c = false) →
      '$' ∉ v →
      (∀ i, i < p.length → tryMatch k (p.drop i ++ varPat k u w ++ q) = none) →
      replaceAll k v (p ++ varPat k u w ++ q) = p ++ v ++ replaceAll k v q) ∧
    (∀ (k v s : List Char),
      (∀ i, i < s.length → tryMatch k (s.drop i) = none) →
      replaceAll k v s = s) ∧
    (∀ (t : Template) (k v : String),
      renderTemplate t [(k, v)] =
        (replaceVar k v t.Subject, replaceVar k v t.Body)) :=
  ⟨fun k v u w p q hk hu hw hh hv hno =>
      replaceAll_at_pat hk hu hw hh hv p hno,
   fun _ _ _ h => replaceAll_of_no_match h,
   fun _ _ _ => rfl⟩

/-- C4 witness: replacing key `"name"` by `"John"` in
`"Hi \x7b\x7b name\x7d\x7d!"` substitutes the single spaced instance and keeps
the prefix and suffix; a text with no match for the key is unchanged. -/
theorem c4_render_replaces_witness :
    replaceAll ['n', 'a', 'm', 'e'] ['J', 'o', 'h', 'n']
        (['H', 'i', ' '] ++ varPat ['n', 'a', 'm', 'e'] [' '] [] ++ ['!'])
      = ['H', 'i', ' '] ++ ['J', 'o', 'h', 'n'] ++
          replaceAll ['n', 'a', 'm', 'e'] ['J', 'o', 'h', 'n'] ['!'] ∧
    replaceAll ['n', 'a', 'm', 'e'] ['J', 'o', 'h', 'n']
        ['n', 'a', 'm', 'e', '!'] = ['n', 'a', 'm', 'e', '!'] :=
  ⟨(c4_render_replaces.1 ['n', 'a', 'm', 'e'] ['J', 'o', 'h', 'n'] [' '] []
      ['H', 'i', ' '] ['!'] (by decide) (by decide) (by decide) (by decide)
      (by decide) (by decide)),
   c4_render_replaces.2.1 ['n', 'a', 'm', 'e'] ['J', 'o', 'h', 'n']
     ['n', 'a', 'm', 'e', '!'] (by decide)⟩

/-- C5: after every `Add` and every `Update`, the stored template records
`Variables` recomputed from its current subject and body — never the
caller-supplied `Variables` — and the extraction yields exactly the set of
distinct trimmed non-empty placeholder names of subject and body under the
scan: membership is characterised by the scan, and the list has no
duplicates. -/
theorem c5_variables_invariant :
    (∀ save l t now, ∃ u,
      addGo save l t now = (l ++ [u], save (l ++ [u])) ∧
      u.Subject = t.Subject ∧ u.Body = t.Body ∧
      u.Variables = extractVariables [t.Subject, t.Body]) ∧
    (∀ save l id t now u, u ∈ (updateGo save l id t now).1 →
      u ∈ l ∨ (u.Subject = t.Subject ∧ u.Body = t.Body ∧
        u.Variables = extractVariables [t.Subject, t.Body])) ∧
    (∀ texts : List String, (extractVariables texts).Nodup ∧
      ∀ v, v ∈ extractVariables texts ↔
        v ≠ "" ∧ ∃ s, s ∈ texts ∧ ∃ n, n ∈ scanVars s.data ∧
          v = String.mk (trimL n)) := by
  refine ⟨?_, ?_, ?_⟩
  · intro save l t now
    simp only [addGo]
    split
    · exact ⟨_, rfl, rfl, rfl, rfl⟩
    · exact ⟨_, rfl, rfl, rfl, rfl⟩
  · intro save l id t now u hu
    simp only [updateGo] at hu
    rcases hidx : l.findIdx? (fun x => x.ID == id) with _ | i <;> rw [hidx] at hu
    · exact Or.inl hu
    · simp only at hu
      rcases List.mem_or_eq_of_mem_set hu with h | h
      · exact Or.inl h
      · subst h
        exact Or.inr ⟨rfl, rfl, rfl⟩
  · intro texts
    refine ⟨List.nodup_dedup _, fun v => ?_⟩
    simp only [extractVariables, List.mem_dedup, List.mem_filter, List.mem_map,
      List.mem_flatMap, bne_iff_ne, ne_eq]
    constructor
    · rintro ⟨⟨n, ⟨s, hs, hn⟩, rfl⟩, hne⟩
      exact ⟨hne, s, hs, n, hn, rfl⟩
    · rintro ⟨hne, s, hs, n, hn, rfl⟩
      exact ⟨⟨n, ⟨s, hs, hn⟩, rfl⟩, hne⟩

/-- C5 witness: adding a template whose caller-supplied `Variables` field
is garbage stores the recomputed set instead. -/
theorem c5_variables_invariant_witness :
    (∃ u, addGo (fun _ => none) []
        { ID := "", Name := "n", Subject := "\x7b\x7bx\x7d\x7d", Body := "",
          Variables := ["garbage"], Tags := [], Description := "",
          CreatedAt := 0, UpdatedAt := 0 } 5
      = ([] ++ [u], (fun _ => none) ([] ++ [u])) ∧
      u.Subject = "\x7b\x7bx\x7d\x7d" ∧ u.Body = "" ∧
      u.Variables = extractVariables ["\x7b\x7bx\x7d\x7d", ""]) ∧
    extractVariables ["\x7b\x7bx\x7d\x7d", ""] = ["x"] :=
  ⟨c5_variables_invariant.1 (fun _ => none) []
     { ID := "", Name := "n", Subject := "\x7b\x7bx\x7d\x7d", Body := "",
       Variables := ["garbage"], Tags := [], Description := "",
       CreatedAt := 0, UpdatedAt := 0 } 5,
   by decide⟩

/-- C10: `Update` and `Delete` with an id matching no stored template both
return without error and leave the list unchanged — a missing id is a
silent no-op (in the code, the loop falls through and returns nil without
calling save). -/
theorem c10_missing_id_noop (save : List Template → Option String)
    (l : List Template) (id : String) (t : Template) (now : Nat)
    (h : ∀ x, x ∈ l → x.ID ≠ id) :
    updateGo save l id t now = (l, none) ∧ deleteGo save l id = (l, none) := by
  have hidx : l.findIdx? (fun x => x.ID == id) = none :=
    List.findIdx?_eq_none_iff.mpr fun x hx => by simpa using h x hx
  constructor
  · simp only [updateGo, hidx]
  · simp only [deleteGo, hidx]

/-- C10 witness: a store holding one template with id `"a"`, updated and
deleted with id `"b"`.  The template fields are, in order: id, name,
subject, body, variables, tags, description, created, updated. -/
theorem c10_missing_id_noop_witness :
    (∀ x, x ∈ [(⟨"a", "", "", "", [], [], "", 0, 0⟩ : Template)] → x.ID ≠ "b") ∧
    updateGo (fun _ => some "boom") [⟨"a", "", "", "", [], [], "", 0, 0⟩] "b"
        ⟨"z", "", "", "", [], [], "", 0, 0⟩ 7
      = ([⟨"a", "", "", "", [], [], "", 0, 0⟩], none) ∧
    deleteGo (fun _ => some "boom") [⟨"a", "", "", "", [], [], "", 0, 0⟩] "b"
      = ([⟨"a", "", "", "", [], [], "", 0, 0⟩], none) := by
  have h : ∀ x, x ∈ [(⟨"a", "", "", "", [], [], "", 0, 0⟩ : Template)] →
      x.ID ≠ "b" := by decide
  have hc := c10_missing_id_noop (fun _ => some "boom")
    [⟨"a", "", "", "", [], [], "", 0, 0⟩] "b"
    ⟨"z", "", "", "", [], [], "", 0, 0⟩ 7 h
  exact ⟨h, hc.1, hc.2⟩

/-- C8: for a (trimmed, non-empty) From input that ends with the literal
`@`, an available provider domain (a configured non-empty Mailgun domain)
is appended to the input before any parsing, so the primary mailbox parse
sees the completed address; when that parse accepts the completed address
with an empty display name, `parseFromField` returns it with no error. -/
theorem c8_domain_append (pa : String → Except String (String × String))
    (input d : String)
    (h1 : trimL input.data = input.data) (h2 : input.data ≠ [])
    (h3 : input.data.getLast? = some '@') (h4 : d.data ≠ [])
    (h5 : pa (String.mk (input.data ++ d.data))
      = .ok (String.mk (input.data ++ d.data), "")) :
    parseFromField pa input (some d)
      = .ok (String.mk (input.data ++ d.data), "") := by
  simp only [parseFromField, h1]
  rw [if_neg (by simp [h2])]
  have ha : appendDomain input.data (some d) = input.data ++ d.data := by
    rw [appendDomain, if_pos h3]
    exact if_neg (by simp [h4])
  rw [ha, h5]

/-- C8 witness: `ParseFrom("user@", "example.com")` completes to
`user@example.com` with an empty display name and no error. -/
theorem c8_domain_append_witness :
    parseFromField simpleParseAddress "user@" (some "example.com")
      = .ok ("user@example.com", "") := by
  have h := c8_domain_append simpleParseAddress "user@" "example.com"
    (by decide) (by decide) (by decide) (by decide) (by decide)
  exact h.trans (by decide)

/-- C7: whenever `parseFromField` reports an error, that error is built
from the primary parse attempt on the (trimmed, domain-completed) input —
the format string wraps the offending input and the primary parse failure
reason — and never from the fallback attempt, whose own failure is
discarded. -/
theorem c7_primary_error (pa : String → Except String (String × String))
    (raw : String) (domain : Option String) (err : String)
    (h : parseFromField pa raw domain = .error err) :
    ∃ e, pa (String.mk (appendDomain (trimL raw.data) domain)) = .error e ∧
      err = errFmt (String.mk (appendDomain (trimL raw.data) domain)) e := by
  simp only [parseFromField] at h
  by_cases h0 : (trimL raw.data).isEmpty
  · rw [if_pos h0] at h
    exact absurd h (by simp)
  · rw [if_neg h0] at h
    rcases hpa : pa (String.mk (appendDomain (trimL raw.data) domain))
        with e' | an
    · simp only [hpa] at h
      refine ⟨e', rfl, ?_⟩
      split at h
      · split at h
        · split at h
          · exact absurd h (by simp)
          · exact (Except.error.inj h).symm
        · exact (Except.error.inj h).symm
      · exact (Except.error.inj h).symm
    · simp only [hpa] at h
      exact absurd h (by simp)

/-- C7 witness: an input on which both the primary parse and the bracketed
fallback fail; the reported error wraps the primary failure reason. -/
theorem c7_primary_error_witness :
    ∃ e, simpleParseAddress
        (String.mk (appendDomain (trimL ("x <not valid> y" : String).data) none))
      = .error e ∧
      ("invalid email address 'x <not valid> y': mail: missing @ or angle-addr"
        : String)
      = errFmt (String.mk (appendDomain (trimL ("x <not valid> y" : String).data)
          none)) e :=
  c7_primary_error simpleParseAddress "x <not valid> y" none
    "invalid email address 'x <not valid> y': mail: missing @ or angle-addr"
    (by decide)

/-- C6: validating a comma-joined recipient field splits on commas, trims
each part, and fails the entire field as soon as any non-empty part is
rejected by the mailbox parser, naming the first offending address in the
error; no partial list is returned. -/
theorem c6_first_invalid (pa : String → Except String (String × String))
    (s : String) (e : List Char) (r : String)
    (h0 : s.data ≠ []) (h1 : firstInvalid pa s = some e)
    (h2 : pa (String.mk e) = .error r) :
    splitEmails pa s = .error ("invalid email '" ++ String.mk e ++ "': " ++ r) := by
  rw [splitEmails, if_neg (by simp [h0])]
  exact splitEmailsLoop_first pa (splitComma s.data) e r (by
    simpa [firstInvalid] using h1) h2

/-- C6 witness: the spec example field; `"not-valid"` is the first
offending address and the whole field fails naming it. -/
theorem c6_first_invalid_witness :
    firstInvalid simpleParseAddress "a@x.com, not-valid, b@y.com"
      = some ['n', 'o', 't', '-', 'v', 'a', 'l', 'i', 'd'] ∧
    splitEmails simpleParseAddress "a@x.com, not-valid, b@y.com"
      = .error "invalid email 'not-valid': mail: missing @ or angle-addr" := by
  constructor
  · decide
  · have h := c6_first_invalid simpleParseAddress "a@x.com, not-valid, b@y.com"
      ['n', 'o', 't', '-', 'v', 'a', 'l', 'i', 'd']
      "mail: missing @ or angle-addr" (by decide) (by decide) (by decide)
    exact h.trans (by decide)

/-- C3: on a (trimmed, non-empty) From input rejected by the primary
mailbox parse and containing both angle brackets, the fallback locates the
first `<` and the first `>` (failing when the first `>` precedes the first
`<`, and — see the last conjunct — when either bracket is absent); the
address candidate is the trimmed substring strictly between them and the
display-name candidate is the trimmed text before `<` when non-empty, else
the trimmed text after `>`; when the mailbox parser accepts the address
candidate the pair is returned, with no error. -/
theorem c3_bracket_fallback (pa : String → Except String (String × String))
    (input e : String)
    (h1 : trimL input.data = input.data) (h2 : input.data ≠ [])
    (hp : pa input = .error e) :
    (∀ r, input.data.contains '<' = true → input.data.contains '>' = true →
      input.data.findIdx (· == '<') < input.data.findIdx (· == '>') →
      pa (String.mk (trimL ((input.data.drop (input.data.findIdx (· == '<') + 1)).take
          (input.data.findIdx (· == '>') - input.data.findIdx (· == '<') - 1)))) = .ok r →
      parseFromField pa input none = .ok
        (String.mk (trimL ((input.data.drop (input.data.findIdx (· == '<') + 1)).take
            (input.data.findIdx (· == '>') - input.data.findIdx (· == '<') - 1))),
         String.mk (if input.data.findIdx (· == '>') < input.data.length - 1 ∧
              (trimL (input.data.take (input.data.findIdx (· == '<')))).isEmpty
            then trimL (input.data.drop (input.data.findIdx (· == '>') + 1))
            else trimL (input.data.take (input.data.findIdx (· == '<')))))) ∧
    (input.data.contains '<' = true → input.data.contains '>' = true →
      ¬ input.data.findIdx (· == '<') < input.data.findIdx (· == '>') →
      parseFromField pa input none = .error (errFmt input e)) ∧
    ((input.data.contains '<' && input.data.contains '>') = false →
      parseFromField pa input none = .error (errFmt input e)) := by
  have hp' : pa (String.mk input.data) = .error e := hp
  refine ⟨?_, ?_, ?_⟩
  · intro r hlt hgt hst hep
    simp only [parseFromField, h1, appendDomain_none]
    rw [if_neg (by simp [h2])]
    simp only [hp']
    rw [if_pos (show (input.data.contains '<' && input.data.contains '>') = true by rw [hlt, hgt]; rfl)]
    rw [if_pos hst]
    simp only [hep]
  · intro hlt hgt hst
    simp only [parseFromField, h1, appendDomain_none]
    rw [if_neg (by simp [h2])]
    simp only [hp']
    rw [if_pos (show (input.data.contains '<' && input.data.contains '>') = true by rw [hlt, hgt]; rfl)]
    rw [if_neg hst]
  · intro hff
    simp only [parseFromField, h1, appendDomain_none]
    rw [if_neg (by simp [h2])]
    simp only [hp']
    rw [if_neg (show ¬(input.data.contains '<' && input.data.contains '>') = true by rw [hff]; decide)]

/-- C3 witness: the reversed composite form of the spec,
`ParseFrom("<jane@example.com> Jane Doe", "")`. -/
theorem c3_bracket_fallback_witness :
    parseFromField simpleParseAddress "<jane@example.com> Jane Doe" none
      = .ok ("jane@example.com", "Jane Doe") := by
  have h := (c3_bracket_fallback simpleParseAddress "<jane@example.com> Jane Doe"
      "mail: missing @ or angle-addr" (by decide) (by decide) (by decide)).1
    ("jane@example.com", "") (by decide) (by decide) (by decide) (by decide)
  exact h.trans (by decide)

end Mailgloss
